import Mathlib

/-!
Formal model of `despac_warrant_mc.py`, a Monte Carlo pricer for deSPAC
warrants.  Real-valued quantities are modelled as rationals.  The two
transcendental library routines the script uses (`np.exp` and `np.sqrt`) are
abstracted as function parameters `gexp` and `gsqrt`; the analytic facts a
claim needs about them (positivity, the exponential law, `sqrt 0 = 0`) are
taken as explicit hypotheses where required.  The seeded normal draws
(`np.random.seed(1234)` followed by antithetic concatenation) are abstracted
as a draw-matrix parameter: every theorem below holds for an arbitrary draw
matrix, hence in particular for the seeded antithetic one.  Matrices are
functions `path → time column → ℚ`; numpy's whole-matrix masked assignments
become pointwise conditionals, and its sequential loops become `List.foldl`
over the same index ranges.
-/

/-- Matrix of rationals indexed by (path, time column), the shape
`numpy` arrays `S`, `B18`, `W`, `SR` have in the script. -/
abbrev Mat : Type := ℕ → ℕ → ℚ

/-- Inner backward recursion of `DCF`, with an explicit counter `e` standing
for `cf.length - 1 - t`.  `dcfPVAux d cf t e` is the value the script stores
in `dcf_out[:, t]`: for `e = 0` (that is, at the last column
`t = cf.length - 1`) it is `disc_factor * cf_in[:,-1] + cf_in[:,-2]`, and
otherwise it is `disc_factor * dcf_out[:,t+1] + cf_in[:,t-1]`, exactly the
loop `for t in range(cf_in.shape[1]-2, 0, -1)` read off backwards. -/
def dcfPVAux (d : ℚ) (cf : List ℚ) : ℕ → ℕ → ℚ
  | _, 0 => d * cf.getD (cf.length - 1) 0 + cf.getD (cf.length - 2) 0
  | t, e + 1 => d * dcfPVAux d cf (t + 1) e + cf.getD (t - 1) 0

/-- Column `t` of the script's `dcf_out` array, for `1 ≤ t ≤ cf.length - 1`. -/
def dcfPV (d : ℚ) (cf : List ℚ) (t : ℕ) : ℚ :=
  dcfPVAux d cf t (cf.length - 1 - t)

/-- One row of the script's `DCF`: for at least two cash-flow columns the
result is `dcf_out[:,0] = disc_factor * dcf_out[:,1]`; for a single column it
is `disc_factor * cf_in` (the one-period branch of the script).  The script
raises an index error on zero columns; that case is outside every claim. -/
def DCFrow (cf : List ℚ) (d : ℚ) : ℚ :=
  if 1 < cf.length then d * dcfPV d cf 1 else d * cf.getD 0 0

/-- Script function `DCF`: a present value per path (row). -/
def DCF (cf : List (List ℚ)) (d : ℚ) : List ℚ :=
  cf.map (fun row => DCFrow row d)

/-- Hard-coded risk-free rate `r = .05` of `price_warrant`. -/
def rQ : ℚ := 5 / 100

/-- Hard-coded step size `dt = 1/252` of `price_warrant`. -/
def dtQ : ℚ := 1 / 252

/-- Hard-coded strike `X = 11.5` of `price_warrant`. -/
def XQ : ℚ := 23 / 2

/-- Hard-coded path count `N = 100000` of `price_warrant`. -/
def NQ : ℕ := 100000

/-- Truncation toward zero, the semantics of Python's `int()` on a real. -/
def intTrunc (x : ℚ) : ℤ :=
  if 0 ≤ x then ⌊x⌋ else ⌈x⌉

/-- Step count `steps = int(T/dt)` of `price_warrant`, as a natural number. -/
def stepsNat (T : ℚ) : ℕ :=
  (intTrunc (T / dtQ)).toNat

/-- Simulated GBM path matrix: `S[:,0] = S0` and
`S[:,t] = S[:,t-1] * exp(drift + vol_step * draws[:,t-1])` for `t ≥ 1`. -/
def pathS (gexp : ℚ → ℚ) (S0 drift volStep : ℚ) (draws : Mat) (p : ℕ) : ℕ → ℚ
  | 0 => S0
  | t + 1 => pathS gexp S0 drift volStep draws p t * gexp (drift + volStep * draws p t)

/-- Path matrix of `price_warrant` with its hard-coded drift
`(r - .5*vol**2)*dt` and shock scale `vol*np.sqrt(dt)`. -/
def simPaths (gexp gsqrt : ℚ → ℚ) (draws : Mat) (S0 vol : ℚ) : Mat :=
  pathS gexp S0 ((rQ - (1 / 2) * vol ^ 2) * dtQ) (vol * gsqrt dtQ) draws

/-- Count of columns `j ∈ [a, b]` of a path row with price at least the
barrier level 18, the value of `np.sum(S[:, a : b+1] >= 18, axis=1)`. -/
def countGE (f : ℕ → ℚ) (a b : ℕ) : ℕ :=
  ((Finset.Icc a b).filter (fun j => 18 ≤ f j)).card

/-- Barrier-cross count matrix `B18` of the script: zero outside the loop
range `t ∈ range(1, steps+1)` and during lockout; inside, the ramp-up branch
(`t - lockout < 29`) counts over columns `lockout..t` (the slice
`S[:, lockout : t+1]`), and the full-window branch counts over columns
`t-29..t` (the slice `S[:, t-window+1 : t+1]` with `window = 30`).  The
script stores these counts in a float matrix; here they are naturals. -/
def B18 (S : Mat) (lockout steps : ℕ) : ℕ → ℕ → ℕ := fun p t =>
  if 1 ≤ t ∧ t ≤ steps ∧ lockout < t then
    (if t - lockout < 29 then countGE (S p) lockout t
     else countGE (S p) (t - 29) t)
  else 0

/-- Variant of `B18` where the ramp-up comparison `t - lockout < 29` is
replaced by `t - lockout < 30`, the replacement described by claim C10. -/
def B18alt (S : Mat) (lockout steps : ℕ) : ℕ → ℕ → ℕ := fun p t =>
  if 1 ≤ t ∧ t ≤ steps ∧ lockout < t then
    (if t - lockout < 30 then countGE (S p) lockout t
     else countGE (S p) (t - 29) t)
  else 0

/-- One iteration of the forced-redemption loop: the masked assignment
`S[B18[:,t] >= 20.0, t+22:] = 0` as a pointwise conditional. -/
def redeemOnce (B : ℕ → ℕ → ℕ) (t : ℕ) (S : Mat) : Mat := fun p j =>
  if 20 ≤ B p t ∧ t + 22 ≤ j then 0 else S p j

/-- Forced-redemption stage, the loop `for t in range(0, steps-1)` applied to
the simulated price matrix with the barrier counts fixed beforehand. -/
def redeemed (B : ℕ → ℕ → ℕ) (steps : ℕ) (S : Mat) : Mat :=
  (List.range (steps - 1)).foldl (fun A t => redeemOnce B t A) S

/-- Price matrix of `price_warrant` after the redemption-tracking stage
(lockout is hard-coded to 0 in the script). -/
def Sred (gexp gsqrt : ℚ → ℚ) (draws : Mat) (S0 vol T : ℚ) : Mat :=
  redeemed (B18 (simPaths gexp gsqrt draws S0 vol) 0 (stepsNat T))
    (stepsNat T) (simPaths gexp gsqrt draws S0 vol)

/-- Initial warrant cash-flow matrix:
`W[:,steps] = np.maximum(S[:,steps]-X, 0)`, zero elsewhere. -/
def initW (S : Mat) (X : ℚ) (steps : ℕ) : Mat := fun p j =>
  if j = steps then max (S p steps - X) 0 else 0

/-- Initial stop-rule matrix: `SR[S[:,steps] > X, steps] = 1`, zero
elsewhere. -/
def initSR (S : Mat) (X : ℚ) (steps : ℕ) : Mat := fun p j =>
  if j = steps ∧ X < S p steps then 1 else 0

/-- Per-path stop rule of one backward-induction iteration: 1 on the paths
selected by `np.where((S[:,t] > X) & (S[:,t+1] == 0))`, else 0. -/
def stopRule (S : Mat) (X : ℚ) (p t : ℕ) : ℚ :=
  if X < S p t ∧ S p (t + 1) = 0 then 1 else 0

/-- One backward-induction iteration at time `t` acting on the pair
`(W, SR)`.  When lockout has expired it writes the new column `t`
(`W[:,t] = stop_rule * np.maximum(S[:,t]-X, 0)` and `SR[:,t] = stop_rule`)
and then zeroes both matrices strictly after `t` on exercising paths
(`W[SR[:,t]==1, t+1:] = 0` and likewise for `SR`); during lockout it is the
identity. -/
def exerciseStep (S : Mat) (X : ℚ) (lockout : ℕ) (st : Mat × Mat) (t : ℕ) :
    Mat × Mat :=
  if lockout < t then
    ((fun p j =>
        if stopRule S X p t = 1 ∧ t + 1 ≤ j then 0
        else if j = t then stopRule S X p t * max (S p t - X) 0
        else st.1 p j),
     (fun p j =>
        if stopRule S X p t = 1 ∧ t + 1 ≤ j then 0
        else if j = t then stopRule S X p t
        else st.2 p j))
  else st

/-- Descending index list `[n, n-1, ..., 1]`, the iteration order of the
Python loop `for t in range(n, 0, -1)`. -/
def backRange : ℕ → List ℕ
  | 0 => []
  | n + 1 => (n + 1) :: backRange n

/-- Backward exercise pass of `price_warrant`: the loop
`for t in range(steps-1, 0, -1)` over `exerciseStep`, started from the
maturity initialisation of `W` and `SR`. -/
def exercisePass (S : Mat) (X : ℚ) (lockout steps : ℕ) : Mat × Mat :=
  (backRange (steps - 1)).foldl (exerciseStep S X lockout)
    (initW S X steps, initSR S X steps)

/-- Row `p` of the slice `W[:,1:]` handed to `DCF`, as a list of the
`steps` columns `1..steps`, discounted by `DCFrow`. -/
def pathValues (W : Mat) (steps : ℕ) (disc : ℚ) : ℕ → ℚ := fun p =>
  DCFrow ((List.range steps).map (fun i => W p (i + 1))) disc

/-- Sample mean over the first `N` paths, `path_values.mean()`. -/
def meanQ (N : ℕ) (v : ℕ → ℚ) : ℚ :=
  (∑ p in Finset.range N, v p) / N

/-- Population standard deviation `path_values.std()`, with `np.sqrt`
abstracted as `gsqrt`. -/
def stdQ (gsqrt : ℚ → ℚ) (N : ℕ) (v : ℕ → ℚ) : ℚ :=
  gsqrt (meanQ N (fun p => (v p - meanQ N v) ^ 2))

/-- Mean / standard-error pair
`(path_values.mean(), path_values.std()/np.sqrt(len(path_values)))`. -/
def aggregate (gsqrt : ℚ → ℚ) (N : ℕ) (v : ℕ → ℚ) : ℚ × ℚ :=
  (meanQ N v, stdQ gsqrt N v / gsqrt (N : ℚ))

/-- One iteration of the script's backward loop including the trailing
valuation lines: the loop body recomputes `path_values = DCF(W[:,1:], disc)`,
`w_prc` and `se` in every iteration (they sit inside the `for` body), so the
iteration state carries the latest `(w_prc, se)` pair; `none` models the
Python variables being still unbound. -/
def srcStep (S : Mat) (X : ℚ) (lockout steps : ℕ) (disc : ℚ)
    (gsqrt : ℚ → ℚ) (N : ℕ) (st : (Mat × Mat) × Option (ℚ × ℚ)) (t : ℕ) :
    (Mat × Mat) × Option (ℚ × ℚ) :=
  ((exerciseStep S X lockout st.1 t),
    some (aggregate gsqrt N
      (pathValues (exerciseStep S X lockout st.1 t).1 steps disc)))

/-- Returned `(w_prc, se)` of the source backward loop.  If the loop body
never runs (`steps ≤ 1`) the Python variables `w_prc`, `se` are unbound and
the `return` raises; this is modelled by `none`. -/
def priceSrc (S : Mat) (X : ℚ) (lockout steps : ℕ) (disc : ℚ)
    (gsqrt : ℚ → ℚ) (N : ℕ) : Option (ℚ × ℚ) :=
  ((backRange (steps - 1)).foldl (srcStep S X lockout steps disc gsqrt N)
    ((initW S X steps, initSR S X steps), none)).2

/-- Variant valuation described by claim C9: run the backward exercise pass
to completion first, then compute the discounted path values and the
mean / standard-error aggregation exactly once. -/
def priceOnce (S : Mat) (X : ℚ) (lockout steps : ℕ) (disc : ℚ)
    (gsqrt : ℚ → ℚ) (N : ℕ) : ℚ × ℚ :=
  aggregate gsqrt N (pathValues (exercisePass S X lockout steps).1 steps disc)

/-- Whole pipeline of `price_warrant` with the script's hard-coded
constants: simulate, track redemption, run the backward exercise loop with
its in-loop valuation, return the last computed `(w_prc, se)`. -/
def priceWarrant (gexp gsqrt : ℚ → ℚ) (draws : Mat) (S0 T vol : ℚ) :
    Option (ℚ × ℚ) :=
  priceSrc (Sred gexp gsqrt draws S0 vol T) XQ 0 (stepsNat T)
    (gexp (-(rQ * dtQ))) gsqrt NQ

/-- First exercise time strictly after `k`, searching at most `e` steps
upward: the least `t > k` (with `t ≤ k + e`) satisfying the exercise
condition `lockout < t ∧ S[p,t] > X ∧ S[p,t+1] == 0`, if any.  This is the
value that survives the backward loop, since a later pass at a smaller time
zeroes every column after it. -/
def firstExAux (S : Mat) (X : ℚ) (lockout : ℕ) (p : ℕ) : ℕ → ℕ → Option ℕ
  | _, 0 => none
  | k, e + 1 =>
    if lockout < k + 1 ∧ X < S p (k + 1) ∧ S p (k + 2) = 0 then some (k + 1)
    else firstExAux S X lockout p (k + 1) e

/-- First exercise time in the interval `(k, n]`, if any. -/
def firstEx (S : Mat) (X : ℚ) (lockout : ℕ) (p k n : ℕ) : Option ℕ :=
  firstExAux S X lockout p k (n - k)

/-- Loop invariant of the backward exercise pass: after the iterations
`t = steps-1, ..., k+1` have run, each path's rows of `W` and `SR` are the
initial maturity rows if no exercise time lies in `(k, steps-1]`, and
otherwise are supported exactly on the least such time. -/
def stateOK (S : Mat) (X : ℚ) (lockout steps k : ℕ) (st : Mat × Mat) : Prop :=
  ∀ p j,
    (firstEx S X lockout p k (steps - 1) = none →
      st.1 p j = initW S X steps p j ∧ st.2 p j = initSR S X steps p j) ∧
    (∀ m, firstEx S X lockout p k (steps - 1) = some m →
      st.1 p j = (if j = m then max (S p m - X) 0 else 0) ∧
      st.2 p j = (if j = m then 1 else 0))

/-! Theorems about the Discounter (`DCF`). -/

/-- Any function satisfying the backward recursion of the spec agrees with
the columns the script's loop computes: `dcfPVAux d cf t e` (column `t` of
`dcf_out`, one-indexed `PV (t+1)`) equals `PV (t+1)` whenever
`t + e = cf.length - 1`. -/
lemma dcfPVAux_eq (cf : List ℚ) (d : ℚ) (PV : ℕ → ℚ)
    (hlen : 2 ≤ cf.length)
    (hinit : PV cf.length = d * cf.getD (cf.length - 1) 0 + cf.getD (cf.length - 2) 0)
    (hrec : ∀ t, 2 ≤ t → t + 1 ≤ cf.length → PV t = d * PV (t + 1) + cf.getD (t - 2) 0) :
    ∀ e t, 1 ≤ t → t + e = cf.length - 1 → dcfPVAux d cf t e = PV (t + 1) := by
  intro e
  induction e with
  | zero =>
    intro t ht hte
    have h1 : t + 1 = cf.length := by omega
    show d * cf.getD (cf.length - 1) 0 + cf.getD (cf.length - 2) 0 = PV (t + 1)
    rw [h1, hinit]
  | succ e ih =>
    intro t ht hte
    show d * dcfPVAux d cf (t + 1) e + cf.getD (t - 1) 0 = PV (t + 1)
    rw [ih (t + 1) (by omega) (by omega),
      hrec (t + 1) (by omega) (by omega),
      show t + 1 - 2 = t - 1 from by omega]

/-- Claim C1: for every cash-flow row with at least two columns and every
discount factor `d`, `DCF` returns the value produced by the backward
recursion `PV(n) = d*cf(n) + cf(n-1)`, `PV(t) = d*PV(t+1) + cf(t-1)` for
`t` from `n-1` down to `2`, finally discounting the last accumulated value
once more (`d * PV 2`); and on the row `[5, 0, 10]` with `d = 0.99` the
result is `14.65299` to within `1e-9`.  Here `cf` is one-indexed through
`cf.getD (k-1) 0`. -/
theorem c1_dcf_backward_recursion :
    (∀ (cf : List ℚ) (d : ℚ) (PV : ℕ → ℚ), 2 ≤ cf.length →
      PV cf.length = d * cf.getD (cf.length - 1) 0 + cf.getD (cf.length - 2) 0 →
      (∀ t, 2 ≤ t → t + 1 ≤ cf.length → PV t = d * PV (t + 1) + cf.getD (t - 2) 0) →
      DCFrow cf d = d * PV 2) ∧
    |DCFrow [5, 0, 10] (99 / 100) - 1465299 / 100000| ≤ 1 / 1000000000 := by
  constructor
  · intro cf d PV hlen hinit hrec
    rw [DCFrow, if_pos (by omega), dcfPV,
      dcfPVAux_eq cf d PV hlen hinit hrec (cf.length - 1 - 1) 1 le_rfl (by omega)]
  · norm_num [DCFrow, dcfPV, dcfPVAux]

/-- Witness for C1: the backward-recursion theorem applied to the concrete
row `[5, 0, 10]` with `d = 99/100` and the explicit recursion values
`PV 3 = 99/10`, `PV 2 = 14801/1000`. -/
theorem c1_witness : DCFrow [5, 0, 10] (99 / 100) = 1465299 / 100000 := by
  have hrec : ∀ t, 2 ≤ t → t + 1 ≤ ([5, 0, 10] : List ℚ).length →
      (fun s => if s = 3 then (99 : ℚ) / 10 else if s = 2 then 14801 / 1000 else 0) t =
        99 / 100 *
          (fun s => if s = 3 then (99 : ℚ) / 10 else if s = 2 then 14801 / 1000 else 0)
            (t + 1) +
        ([5, 0, 10] : List ℚ).getD (t - 2) 0 := by
    intro t h2 h3
    have h3' : t + 1 ≤ 3 := h3
    have ht : t = 2 := by omega
    subst ht
    norm_num
  have h := c1_dcf_backward_recursion.1 [5, 0, 10] (99 / 100)
    (fun s => if s = 3 then (99 : ℚ) / 10 else if s = 2 then 14801 / 1000 else 0)
    (by norm_num) (by norm_num) hrec
  rw [h]
  norm_num

/-! Theorems about the redemption tracker's barrier counts. -/

/-- Claim C5, amended: for each step `t` with `lockout < t ≤ steps`, the
barrier count equals the number of columns with price at least 18 over a
trailing window of exactly `min 30 (t - lockout + 1)` columns ending at `t`
(the claim as stated says `min 30 (t - lockout)` columns, which fails on the
ramp-up branch because the slice `S[:, lockout : t+1]` also includes column
`lockout` itself). -/
theorem c5_barrier_window (S : Mat) (lockout steps p t : ℕ)
    (h1 : lockout < t) (h2 : t ≤ steps) :
    B18 S lockout steps p t = countGE (S p) (t + 1 - min 30 (t - lockout + 1)) t := by
  rw [B18]
  rw [if_pos (by omega)]
  by_cases hr : t - lockout < 29
  · rw [if_pos hr, show t + 1 - min 30 (t - lockout + 1) = lockout from by omega]
  · rw [if_neg hr, show t + 1 - min 30 (t - lockout + 1) = t - 29 from by omega]

/-- Witness for C5: the amended window formula evaluated on the constant
price matrix 20 with `lockout = 0`, `steps = 5`, path 0, step 1. -/
theorem c5_witness :
    B18 (fun _ _ => (20 : ℚ)) 0 5 0 1 =
      countGE ((fun _ _ => (20 : ℚ)) 0) (1 + 1 - min 30 (1 - 0 + 1)) 1 :=
  c5_barrier_window (fun _ _ => (20 : ℚ)) 0 5 0 1 (by omega) (by omega)

/-- Counterexample for C5 as stated: on the constant price matrix 20 with
`lockout = 0` at step `t = 1`, the script's count is 2 (columns 0 and 1),
while a trailing window of `min 30 (t - lockout) = 1` columns ending at `t`
would give 1. -/
theorem c5_counterexample :
    ¬ (B18 (fun _ _ => (20 : ℚ)) 0 5 0 1 =
        countGE ((fun _ _ => (20 : ℚ)) 0) (1 + 1 - min 30 (1 - 0)) 1) := by
  decide

/-- Claim C10: replacing the ramp-up comparison `t - lockout < 29` with
`t - lockout < 30` leaves every barrier count unchanged, for every price
matrix, lockout, step count, path and step: at `t - lockout = 29` the
ramp-up slice over columns `lockout..t` and the full-window slice over
columns `t-29..t` are the same 30 columns. -/
theorem c10_ramp_boundary_equivalence (S : Mat) (lockout steps p t : ℕ) :
    B18alt S lockout steps p t = B18 S lockout steps p t := by
  rw [B18, B18alt]
  by_cases hg : 1 ≤ t ∧ t ≤ steps ∧ lockout < t
  · rw [if_pos hg, if_pos hg]
    by_cases h29 : t - lockout < 29
    · rw [if_pos h29, if_pos (by omega)]
    · rw [if_neg h29]
      by_cases h30 : t - lockout < 30
      · rw [if_pos h30, show lockout = t - 29 from by omega]
      · rw [if_neg h30]
  · rw [if_neg hg, if_neg hg]

/-! Theorems about the forced-redemption stage. -/

/-- Closed form of the redemption loop over `range n`, zeroing direction:
since the barrier counts are fixed before the loop, an entry is zeroed as
soon as some trigger step `t < n` has count at least 20 and lies at least 22
columns before it. -/
lemma redeemedRange_zero (B : ℕ → ℕ → ℕ) : ∀ (n : ℕ) (S : Mat) (p j : ℕ),
    (∃ t, t < n ∧ 20 ≤ B p t ∧ t + 22 ≤ j) →
    ((List.range n).foldl (fun A t => redeemOnce B t A) S) p j = 0 := by
  intro n
  induction n with
  | zero => rintro S p j ⟨t, ht, _⟩; omega
  | succ n ih =>
    rintro S p j ⟨t, ht, hh⟩
    simp only [List.range_succ, List.foldl_append, List.foldl_cons, List.foldl_nil]
    simp only [redeemOnce]
    by_cases h1 : 20 ≤ B p n ∧ n + 22 ≤ j
    · rw [if_pos h1]
    · rw [if_neg h1]
      have htn : t < n := by
        rcases Nat.lt_succ_iff_lt_or_eq.mp ht with h | h
        · exact h
        · subst h; exact absurd hh h1
      exact ih S p j ⟨t, htn, hh⟩

/-- Closed form of the redemption loop over `range n`, preservation
direction: an entry with no trigger step before it is left unchanged. -/
lemma redeemedRange_id (B : ℕ → ℕ → ℕ) : ∀ (n : ℕ) (S : Mat) (p j : ℕ),
    (∀ t, t < n → ¬(20 ≤ B p t ∧ t + 22 ≤ j)) →
    ((List.range n).foldl (fun A t => redeemOnce B t A) S) p j = S p j := by
  intro n
  induction n with
  | zero => intro S p j _; simp
  | succ n ih =>
    intro S p j hno
    simp only [List.range_succ, List.foldl_append, List.foldl_cons, List.foldl_nil]
    simp only [redeemOnce]
    rw [if_neg (hno n (by omega))]
    exact ih S p j (fun t ht => hno t (by omega))

/-- Redemption stage, zeroing direction, over `for t in range(0, steps-1)`. -/
lemma redeemed_zero (B : ℕ → ℕ → ℕ) (steps : ℕ) (S : Mat) (p j : ℕ)
    (h : ∃ t, t < steps - 1 ∧ 20 ≤ B p t ∧ t + 22 ≤ j) :
    redeemed B steps S p j = 0 := by
  rw [redeemed]; exact redeemedRange_zero B (steps - 1) S p j h

/-- Redemption stage, preservation direction. -/
lemma redeemed_pres (B : ℕ → ℕ → ℕ) (steps : ℕ) (S : Mat) (p j : ℕ)
    (h : ∀ t, t < steps - 1 → ¬(20 ≤ B p t ∧ t + 22 ≤ j)) :
    redeemed B steps S p j = S p j := by
  rw [redeemed]; exact redeemedRange_id B (steps - 1) S p j h

/-- Positivity of the simulated GBM paths: with a positive exponential model
and a positive start, every entry of the path matrix is positive, so the
GBM update itself never produces a zero. -/
lemma pathS_pos (gexp : ℚ → ℚ) (S0 drift volStep : ℚ) (draws : Mat)
    (hpos : ∀ x, 0 < gexp x) (hS0 : 0 < S0) :
    ∀ p t, 0 < pathS gexp S0 drift volStep draws p t := by
  intro p t
  induction t with
  | zero => exact hS0
  | succ t ih => exact mul_pos ih (hpos _)

/-- Claim C2: for every valid input (`S0 > 0`, `T > 0`, `vol ≥ 0`) the
simulated price matrix is strictly positive (zeros never come from the GBM
update), and the matrix produced by the redemption-tracking stage is
absorbing at zero: a zero entry forces every later entry of that path's row
to be zero. -/
theorem c2_absorbing_at_zero (gexp gsqrt : ℚ → ℚ) (draws : Mat) (S0 T vol : ℚ)
    (hpos : ∀ x, 0 < gexp x) (hS0 : 0 < S0) (hT : 0 < T) (hvol : 0 ≤ vol) :
    (∀ p t, 0 < simPaths gexp gsqrt draws S0 vol p t) ∧
    (∀ p t t', t ≤ t' →
      Sred gexp gsqrt draws S0 vol T p t = 0 →
      Sred gexp gsqrt draws S0 vol T p t' = 0) := by
  have hppos : ∀ p t, 0 < simPaths gexp gsqrt draws S0 vol p t :=
    pathS_pos _ _ _ _ _ hpos hS0
  refine ⟨hppos, ?_⟩
  intro p t t' htt hz
  rw [Sred] at hz ⊢
  by_cases hc : ∃ t0, t0 < stepsNat T - 1 ∧
      20 ≤ B18 (simPaths gexp gsqrt draws S0 vol) 0 (stepsNat T) p t0 ∧ t0 + 22 ≤ t
  · obtain ⟨t0, ht0, hB, hle⟩ := hc
    exact redeemed_zero _ _ _ _ _ ⟨t0, ht0, hB, by omega⟩
  · rw [redeemed_pres _ _ _ _ _ (fun t0 h0 hcon => hc ⟨t0, h0, hcon⟩)] at hz
    exact absurd hz (ne_of_gt (hppos p t))

/-- Witness for C2: positivity of the simulated matrix at path 0, step 5
for the concrete valid input `S0 = 14`, `T = 2`, `vol = 3/10` with the
trivial exponential model and zero draws. -/
theorem c2_witness :
    0 < simPaths (fun _ => (1 : ℚ)) (fun _ => 0) (fun _ _ => 0) 14 (3 / 10) 0 5 :=
  (c2_absorbing_at_zero (fun _ => (1 : ℚ)) (fun _ => 0) (fun _ _ => 0) 14 2 (3 / 10)
    (fun x => by norm_num) (by norm_num) (by norm_num) (by norm_num)).1 0 5

/-- Claim C4: for every step `t` of the full step range and every path whose
barrier count at `t` is at least 20, every in-matrix entry at least 22 steps
later is zero after the redemption stage.  The loop only visits
`t ∈ range(0, steps-1)`, but a trigger at `t ∈ {steps-1, steps}` has no
in-matrix column `t' ≥ t + 22` anyway, so the fixed 22-step delay holds for
every triggering step, including steps near maturity. -/
theorem c4_redemption_delay (S : Mat) (lockout steps p t : ℕ) (ht : t ≤ steps)
    (hB : 20 ≤ B18 S lockout steps p t) :
    ∀ t', t + 22 ≤ t' → t' ≤ steps →
      redeemed (B18 S lockout steps) steps S p t' = 0 := by
  intro t' h1 h2
  exact redeemed_zero _ _ _ _ _ ⟨t, by omega, hB, h1⟩

/-- Witness for C4: on the constant price matrix 20 with `steps = 43`, the
barrier count at step 20 is 21 (at least 20), and the entry at step 42 is
zeroed by the redemption stage. -/
theorem c4_witness :
    redeemed (B18 (fun _ _ => (20 : ℚ)) 0 43) 43 (fun _ _ => (20 : ℚ)) 0 42 = 0 :=
  c4_redemption_delay (fun _ _ => (20 : ℚ)) 0 43 0 20 (by omega) (by decide)
    42 (by omega) (by omega)

/-! Theorems about the backward exercise pass. -/

/-- Search over an empty interval finds nothing. -/
lemma firstEx_stop (S : Mat) (X : ℚ) (lockout p k n : ℕ) (h : n ≤ k) :
    firstEx S X lockout p k n = none := by
  rw [firstEx, Nat.sub_eq_zero_of_le h]
  rfl

/-- Recurrence of `firstEx`: the least exercise time in `(k, n]` is `k + 1`
when the exercise condition holds there, and otherwise the least one in
`(k+1, n]`. -/
lemma firstEx_rec (S : Mat) (X : ℚ) (lockout p k n : ℕ) (h : k < n) :
    firstEx S X lockout p k n =
      if lockout < k + 1 ∧ X < S p (k + 1) ∧ S p (k + 2) = 0 then some (k + 1)
      else firstEx S X lockout p (k + 1) n := by
  rw [firstEx, firstEx, show n - k = (n - (k + 1)) + 1 from by omega]
  rfl

/-- A found exercise time lies strictly above the search start. -/
lemma firstExAux_lb (S : Mat) (X : ℚ) (lockout p : ℕ) :
    ∀ e k m, firstExAux S X lockout p k e = some m → k < m := by
  intro e
  induction e with
  | zero => intro k m hm; simp [firstExAux] at hm
  | succ e ih =>
    intro k m hm
    simp only [firstExAux] at hm
    by_cases hc : lockout < k + 1 ∧ X < S p (k + 1) ∧ S p (k + 2) = 0
    · rw [if_pos hc] at hm
      injection hm with hm
      omega
    · rw [if_neg hc] at hm
      have := ih (k + 1) m hm
      omega

/-- A found exercise time lies strictly above the search start. -/
lemma firstEx_lb (S : Mat) (X : ℚ) (lockout p k n m : ℕ)
    (h : firstEx S X lockout p k n = some m) : k < m :=
  firstExAux_lb S X lockout p (n - k) k m h

/-- Pointwise value of one exercise iteration, cash-flow component. -/
lemma exerciseStep_fst (S : Mat) (X : ℚ) (lockout : ℕ) (st : Mat × Mat)
    (t p j : ℕ) (hl : lockout < t) :
    (exerciseStep S X lockout st t).1 p j =
      if stopRule S X p t = 1 ∧ t + 1 ≤ j then 0
      else if j = t then stopRule S X p t * max (S p t - X) 0
      else st.1 p j := by
  rw [exerciseStep, if_pos hl]

/-- Pointwise value of one exercise iteration, stop-rule component. -/
lemma exerciseStep_snd (S : Mat) (X : ℚ) (lockout : ℕ) (st : Mat × Mat)
    (t p j : ℕ) (hl : lockout < t) :
    (exerciseStep S X lockout st t).2 p j =
      if stopRule S X p t = 1 ∧ t + 1 ≤ j then 0
      else if j = t then stopRule S X p t
      else st.2 p j := by
  rw [exerciseStep, if_pos hl]

/-- The maturity initialisation satisfies the invariant at the untouched
boundary `steps - 1`. -/
lemma stateOK_init (S : Mat) (X : ℚ) (lockout steps : ℕ) :
    stateOK S X lockout steps (steps - 1) (initW S X steps, initSR S X steps) := by
  intro p j
  constructor
  · intro _
    exact ⟨rfl, rfl⟩
  · intro m hm
    rw [firstEx_stop S X lockout p (steps - 1) (steps - 1) le_rfl] at hm
    simp at hm

/-- One backward iteration preserves the loop invariant, moving the
processed boundary from `k + 1` down to `k`. -/
lemma stateOK_step (S : Mat) (X : ℚ) (lockout steps k : ℕ) (st : Mat × Mat)
    (hk : k + 1 ≤ steps - 1)
    (h : stateOK S X lockout steps (k + 1) st) :
    stateOK S X lockout steps k (exerciseStep S X lockout st (k + 1)) := by
  have hks : k + 1 < steps := by omega
  intro p j
  by_cases hl : lockout < k + 1
  case neg =>
    have hstep : exerciseStep S X lockout st (k + 1) = st := by
      rw [exerciseStep, if_neg hl]
    have hfe : firstEx S X lockout p k (steps - 1) =
        firstEx S X lockout p (k + 1) (steps - 1) := by
      rw [firstEx_rec S X lockout p k (steps - 1) (by omega),
        if_neg (fun hcon => hl hcon.1)]
    rw [hstep, hfe]
    exact h p j
  case pos =>
    by_cases hc : X < S p (k + 1) ∧ S p (k + 2) = 0
    · have hfe : firstEx S X lockout p k (steps - 1) = some (k + 1) := by
        rw [firstEx_rec S X lockout p k (steps - 1) (by omega),
          if_pos ⟨hl, hc.1, hc.2⟩]
      have hsr : stopRule S X p (k + 1) = 1 := by rw [stopRule, if_pos hc]
      constructor
      · intro hn
        rw [hfe] at hn
        simp at hn
      · intro m hm
        rw [hfe] at hm
        injection hm with hm
        subst hm
        refine ⟨?_, ?_⟩
        · rw [exerciseStep_fst S X lockout st (k + 1) p j hl]
          by_cases hj : k + 1 + 1 ≤ j
          · rw [if_pos ⟨hsr, hj⟩, if_neg (show ¬(j = k + 1) from by omega)]
          · rw [if_neg (by rintro ⟨_, hc2⟩; exact hj hc2)]
            by_cases hj2 : j = k + 1
            · rw [if_pos hj2, if_pos hj2, hsr, one_mul]
            · rw [if_neg hj2, if_neg hj2]
              cases hfe2 : firstEx S X lockout p (k + 1) (steps - 1) with
              | none =>
                rw [((h p j).1 hfe2).1, initW,
                  if_neg (show ¬(j = steps) from by omega)]
              | some m' =>
                have hlb := firstEx_lb S X lockout p (k + 1) (steps - 1) m' hfe2
                rw [((h p j).2 m' hfe2).1,
                  if_neg (show ¬(j = m') from by omega)]
        · rw [exerciseStep_snd S X lockout st (k + 1) p j hl]
          by_cases hj : k + 1 + 1 ≤ j
          · rw [if_pos ⟨hsr, hj⟩, if_neg (show ¬(j = k + 1) from by omega)]
          · rw [if_neg (by rintro ⟨_, hc2⟩; exact hj hc2)]
            by_cases hj2 : j = k + 1
            · rw [if_pos hj2, if_pos hj2, hsr]
            · rw [if_neg hj2, if_neg hj2]
              cases hfe2 : firstEx S X lockout p (k + 1) (steps - 1) with
              | none =>
                rw [((h p j).1 hfe2).2, initSR,
                  if_neg (by rintro ⟨hcon, _⟩; omega)]
              | some m' =>
                have hlb := firstEx_lb S X lockout p (k + 1) (steps - 1) m' hfe2
                rw [((h p j).2 m' hfe2).2,
                  if_neg (show ¬(j = m') from by omega)]
    · have hfe : firstEx S X lockout p k (steps - 1) =
          firstEx S X lockout p (k + 1) (steps - 1) := by
        rw [firstEx_rec S X lockout p k (steps - 1) (by omega),
          if_neg (by rintro ⟨_, h1, h2⟩; exact hc ⟨h1, h2⟩)]
      have hsr : stopRule S X p (k + 1) = 0 := by rw [stopRule, if_neg hc]
      have hmask : ¬(stopRule S X p (k + 1) = 1 ∧ k + 1 + 1 ≤ j) := by
        rw [hsr]
        rintro ⟨hcon, _⟩
        norm_num at hcon
      rw [hfe]
      constructor
      · intro hn
        obtain ⟨hW, hSR⟩ := (h p j).1 hn
        refine ⟨?_, ?_⟩
        · rw [exerciseStep_fst S X lockout st (k + 1) p j hl, if_neg hmask]
          by_cases hj : j = k + 1
          · subst hj
            rw [if_pos rfl, hsr, zero_mul, initW,
              if_neg (show ¬(k + 1 = steps) from by omega)]
          · rw [if_neg hj, hW]
        · rw [exerciseStep_snd S X lockout st (k + 1) p j hl, if_neg hmask]
          by_cases hj : j = k + 1
          · subst hj
            rw [if_pos rfl, hsr, initSR,
              if_neg (by rintro ⟨hcon, _⟩; omega)]
          · rw [if_neg hj, hSR]
      · intro m hm
        have hlb := firstEx_lb S X lockout p (k + 1) (steps - 1) m hm
        obtain ⟨hW, hSR⟩ := (h p j).2 m hm
        refine ⟨?_, ?_⟩
        · rw [exerciseStep_fst S X lockout st (k + 1) p j hl, if_neg hmask]
          by_cases hj : j = k + 1
          · subst hj
            rw [if_pos rfl, hsr, zero_mul,
              if_neg (show ¬(k + 1 = m) from by omega)]
          · rw [if_neg hj, hW]
        · rw [exerciseStep_snd S X lockout st (k + 1) p j hl, if_neg hmask]
          by_cases hj : j = k + 1
          · subst hj
            rw [if_pos rfl, hsr,
              if_neg (show ¬(k + 1 = m) from by omega)]
          · rw [if_neg hj, hSR]

/-- Folding the backward loop from any correctly-processed boundary `k`
down to the bottom preserves the invariant. -/
lemma stateOK_fold (S : Mat) (X : ℚ) (lockout steps : ℕ) :
    ∀ k st, k ≤ steps - 1 → stateOK S X lockout steps k st →
      stateOK S X lockout steps 0
        ((backRange k).foldl (exerciseStep S X lockout) st) := by
  intro k
  induction k with
  | zero => intro st _ h; exact h
  | succ k ih =>
    intro st hk h
    have hfold : (backRange (k + 1)).foldl (exerciseStep S X lockout) st =
        (backRange k).foldl (exerciseStep S X lockout)
          (exerciseStep S X lockout st (k + 1)) := rfl
    rw [hfold]
    exact ih _ (by omega) (stateOK_step S X lockout steps k st hk h)

/-- Closed form of the completed backward exercise pass: each path's rows of
`W` and `SR` are the maturity initialisation if the path never satisfies the
exercise condition, and otherwise are supported exactly on the earliest
exercise time. -/
lemma exercisePass_stateOK (S : Mat) (X : ℚ) (lockout steps : ℕ) :
    stateOK S X lockout steps 0 (exercisePass S X lockout steps) := by
  rw [exercisePass]
  exact stateOK_fold S X lockout steps (steps - 1) _ le_rfl
    (stateOK_init S X lockout steps)

/-- Claim C3: after the backward exercise pass completes, the stop-rule row
of every path sums to at most 1 over all time steps — at most one exercise
event per path, because an exercise at step `t` zeroes all later stop-rule
entries of that path. -/
theorem c3_at_most_one_exercise (S : Mat) (X : ℚ) (lockout steps p : ℕ) :
    ∑ t in Finset.range (steps + 1), (exercisePass S X lockout steps).2 p t ≤ 1 := by
  have h := exercisePass_stateOK S X lockout steps
  cases hfe : firstEx S X lockout p 0 (steps - 1) with
  | none =>
    have hall : ∀ t, (exercisePass S X lockout steps).2 p t =
        initSR S X steps p t := fun t => ((h p t).1 hfe).2
    rw [Finset.sum_congr rfl (fun t _ => hall t)]
    by_cases hITM : X < S p steps
    · have hsh : ∀ t, initSR S X steps p t = if t = steps then (1 : ℚ) else 0 := by
        intro t
        rw [initSR]
        by_cases ht : t = steps
        · rw [if_pos ⟨ht, hITM⟩, if_pos ht]
        · rw [if_neg (by rintro ⟨hcon, _⟩; exact ht hcon), if_neg ht]
      rw [Finset.sum_congr rfl (fun t _ => hsh t),
        Finset.sum_ite_eq' (Finset.range (steps + 1)) steps (fun _ => (1 : ℚ)),
        if_pos (Finset.mem_range.mpr (by omega))]
    · have hsh : ∀ t, initSR S X steps p t = 0 := by
        intro t
        rw [initSR, if_neg (by rintro ⟨_, hcon⟩; exact hITM hcon)]
      rw [Finset.sum_congr rfl (fun t _ => hsh t)]
      simp
  | some m =>
    have hall : ∀ t, (exercisePass S X lockout steps).2 p t =
        if t = m then (1 : ℚ) else 0 := fun t => ((h p t).2 m hfe).2
    rw [Finset.sum_congr rfl (fun t _ => hall t),
      Finset.sum_ite_eq' (Finset.range (steps + 1)) m (fun _ => (1 : ℚ))]
    by_cases hm : m ∈ Finset.range (steps + 1)
    · rw [if_pos hm]
    · rw [if_neg hm]
      norm_num

/-! Theorems about the in-loop valuation, the returned pair, and the step
count. -/

/-- The matrix part of the source loop state is exactly the fold of the pure
exercise iterations: the in-loop valuation lines never feed back into `W`
or `SR`. -/
lemma srcFold_fst (S : Mat) (X : ℚ) (lockout steps : ℕ) (disc : ℚ)
    (gsqrt : ℚ → ℚ) (N : ℕ) :
    ∀ (l : List ℕ) (st : (Mat × Mat) × Option (ℚ × ℚ)),
      (l.foldl (srcStep S X lockout steps disc gsqrt N) st).1 =
        l.foldl (exerciseStep S X lockout) st.1 := by
  intro l
  induction l with
  | nil => intro st; rfl
  | cons a l ih =>
    intro st
    show (l.foldl _ (srcStep S X lockout steps disc gsqrt N st a)).1 = _
    rw [ih (srcStep S X lockout steps disc gsqrt N st a)]
    rfl

/-- After at least one iteration of the source loop, the carried
`(w_prc, se)` pair is the aggregation of the discounted cash flows of the
current matrix state — so the value surviving the last iteration is the
aggregation of the completed exercise fold. -/
lemma srcFold_snd (S : Mat) (X : ℚ) (lockout steps : ℕ) (disc : ℚ)
    (gsqrt : ℚ → ℚ) (N : ℕ) :
    ∀ (l : List ℕ) (st : (Mat × Mat) × Option (ℚ × ℚ)), l ≠ [] →
      (l.foldl (srcStep S X lockout steps disc gsqrt N) st).2 =
        some (aggregate gsqrt N
          (pathValues (l.foldl (exerciseStep S X lockout) st.1).1 steps disc)) := by
  intro l
  induction l with
  | nil => intro st hne; exact absurd rfl hne
  | cons a l ih =>
    intro st _
    cases l with
    | nil => rfl
    | cons b l2 =>
      show ((b :: l2).foldl _ (srcStep S X lockout steps disc gsqrt N st a)).2 = _
      rw [ih (srcStep S X lockout steps disc gsqrt N st a) (by simp)]
      rfl

/-- Claim C9: computing the Discounter and the mean / standard-error
aggregation exactly once, after the backward exercise loop has fully
completed (`priceOnce`), returns the same pair as the source, which
recomputes them inside every loop iteration (`priceSrc`) — whenever the
loop body runs at all (`steps ≥ 2`; for fewer steps the source raises on
unbound variables, modelled by `none`). -/
theorem c9_single_final_valuation (S : Mat) (X : ℚ) (lockout steps : ℕ)
    (disc : ℚ) (gsqrt : ℚ → ℚ) (N : ℕ) (h : 2 ≤ steps) :
    priceSrc S X lockout steps disc gsqrt N =
      some (priceOnce S X lockout steps disc gsqrt N) := by
  obtain ⟨k, hk⟩ : ∃ k, steps - 1 = k + 1 := ⟨steps - 2, by omega⟩
  rw [priceSrc, priceOnce, exercisePass, hk]
  exact srcFold_snd S X lockout steps disc gsqrt N (backRange (k + 1)) _
    (by rw [backRange]; simp)

/-- Witness for C9: the refinement equivalence at a concrete instance with
two steps. -/
theorem c9_witness :
    priceSrc (fun _ _ => (0 : ℚ)) 0 0 2 1 (fun _ => 0) 1 =
      some (priceOnce (fun _ _ => (0 : ℚ)) 0 0 2 1 (fun _ => 0) 1) :=
  c9_single_final_valuation (fun _ _ => (0 : ℚ)) 0 0 2 1 (fun _ => 0) 1 (by omega)

/-- Whenever the backward loop runs at least once, the source returns an
actual pair (no unbound-variable failure). -/
lemma priceSrc_isSome (S : Mat) (X : ℚ) (lockout steps : ℕ) (disc : ℚ)
    (gsqrt : ℚ → ℚ) (N : ℕ) (h : 2 ≤ steps) :
    (priceSrc S X lockout steps disc gsqrt N).isSome = true := by
  obtain ⟨k, hk⟩ : ∃ k, steps - 1 = k + 1 := ⟨steps - 2, by omega⟩
  rw [priceSrc, hk,
    srcFold_snd S X lockout steps disc gsqrt N (backRange (k + 1)) _
      (by rw [backRange]; simp)]
  rfl

/-- Claim C6, amended: `price_warrant` performs no input validation at all.
In particular, for `vol < 0` (with any `S0`, `T`) it does not raise before
simulating; it runs the whole pipeline and returns a normal
(price, standard-error) pair whenever the backward loop runs at all. -/
theorem c6_no_validation (gexp gsqrt : ℚ → ℚ) (draws : Mat) (S0 T vol : ℚ)
    (hvol : vol < 0) (hsteps : 2 ≤ stepsNat T) :
    (priceWarrant gexp gsqrt draws S0 T vol).isSome = true := by
  rw [priceWarrant]
  exact priceSrc_isSome _ _ _ _ _ _ _ hsteps

/-- Witness for C6: the amended theorem at `S0 = 14`, `T = 3`,
`vol = -1`. -/
theorem c6_witness :
    (priceWarrant (fun _ => (1 : ℚ)) (fun _ => 0) (fun _ _ => 0) 14 3 (-1)).isSome
      = true :=
  c6_no_validation (fun _ => (1 : ℚ)) (fun _ => 0) (fun _ _ => 0) 14 3 (-1)
    (by norm_num)
    (by rw [stepsNat, show intTrunc ((3 : ℚ) / dtQ) = 756 from by
          norm_num [intTrunc, dtQ]]
        norm_num)

/-- Counterexample for C6 as stated: on the invalid input `vol = -3/10`
(with `S0 = 14 > 0`, `T = 2 > 0`), `price_warrant` raises no validation
error; the valuation call completes and returns a pair. -/
theorem c6_counterexample :
    (priceWarrant (fun _ => (1 : ℚ)) (fun _ => 0) (fun _ _ => 0) 14 2
      (-(3 / 10))).isSome = true := by
  rw [priceWarrant]
  apply priceSrc_isSome
  rw [stepsNat, show intTrunc ((2 : ℚ) / dtQ) = 504 from by
    norm_num [intTrunc, dtQ]]
  norm_num

/-- Claim C7, amended: for `T > 0` the simulated step count is the
truncation (floor, for positive arguments) of `T/dt`, not its rounding:
`steps = int(T/dt)`. -/
theorem c7_step_count_truncates (T : ℚ) (hT : 0 < T) :
    (stepsNat T : ℤ) = ⌊T / dtQ⌋ := by
  have hx : (0 : ℚ) ≤ T / dtQ := by
    apply div_nonneg hT.le
    norm_num [dtQ]
  rw [stepsNat, intTrunc, if_pos hx]
  exact Int.toNat_of_nonneg (Int.floor_nonneg.mpr hx)

/-- Witness for C7: the amended truncation formula at `T = 2`. -/
theorem c7_witness : (stepsNat 2 : ℤ) = ⌊(2 : ℚ) / dtQ⌋ :=
  c7_step_count_truncates 2 (by norm_num)

/-- Counterexample for C7 as stated: at `T = 1.999` (where `T/dt = 503.748`
is not an integer) the script's step count is the truncation 503, not the
rounding 504. -/
theorem c7_counterexample :
    (stepsNat (1999 / 1000) : ℤ) ≠ round ((1999 : ℚ) / 1000 / dtQ) := by
  rw [stepsNat, show intTrunc ((1999 : ℚ) / 1000 / dtQ) = 503 from by
    norm_num [intTrunc, dtQ]]
  norm_num [dtQ, round_eq]

/-! Theorems about zero-volatility determinism. -/

/-- An everywhere-positive exponential model maps 0 to 1. -/
lemma gexp_one (gexp : ℚ → ℚ) (hhom : ∀ a b, gexp (a + b) = gexp a * gexp b)
    (hpos : ∀ x, 0 < gexp x) : gexp 0 = 1 := by
  have h : gexp 0 = gexp 0 * gexp 0 := by
    have h0 := hhom 0 0
    rwa [add_zero] at h0
  have h2 : gexp 0 * 1 = gexp 0 * gexp 0 := by
    rw [mul_one]
    exact h
  exact (mul_left_cancel₀ (hpos 0).ne' h2).symm

/-- With a vanishing shock scale the GBM recursion collapses to the
deterministic compounding `S0 * exp(drift * t)`. -/
lemma pathS_zero_shock (gexp : ℚ → ℚ) (S0 drift : ℚ) (draws : Mat) (p : ℕ)
    (hhom : ∀ a b, gexp (a + b) = gexp a * gexp b) (hpos : ∀ x, 0 < gexp x) :
    ∀ t : ℕ, pathS gexp S0 drift 0 draws p t = S0 * gexp (drift * t) := by
  intro t
  induction t with
  | zero =>
    show S0 = S0 * gexp (drift * ((0 : ℕ) : ℚ))
    rw [Nat.cast_zero, mul_zero, gexp_one gexp hhom hpos, mul_one]
  | succ t ih =>
    show pathS gexp S0 drift 0 draws p t * gexp (drift + 0 * draws p t) = _
    rw [ih, zero_mul, add_zero, mul_assoc, ← hhom,
      show drift * (t : ℚ) + drift = drift * ((t + 1 : ℕ) : ℚ) from by
        push_cast
        ring]

/-- Zero-volatility path formula of `price_warrant`: the drift reduces to
`r*dt` and every path equals `S0 * exp(r*dt*t)`. -/
lemma simPaths_zero_vol (gexp gsqrt : ℚ → ℚ) (draws : Mat) (S0 : ℚ)
    (hhom : ∀ a b, gexp (a + b) = gexp a * gexp b) (hpos : ∀ x, 0 < gexp x) :
    ∀ p t, simPaths gexp gsqrt draws S0 0 p t = S0 * gexp (rQ * dtQ * t) := by
  intro p t
  rw [simPaths,
    show ((rQ - 1 / 2 * (0 : ℚ) ^ 2) * dtQ) = rQ * dtQ from by norm_num,
    show (0 : ℚ) * gsqrt dtQ = 0 from zero_mul _]
  exact pathS_zero_shock gexp S0 (rQ * dtQ) draws p hhom hpos t

/-- One exercise iteration preserves "all path rows are equal". -/
lemma exerciseStep_rows (S : Mat) (X : ℚ) (lockout : ℕ) (st : Mat × Mat) (t : ℕ)
    (hS : ∀ p q j, S p j = S q j)
    (hW : ∀ p q j, st.1 p j = st.1 q j) (hSR : ∀ p q j, st.2 p j = st.2 q j) :
    (∀ p q j, (exerciseStep S X lockout st t).1 p j =
      (exerciseStep S X lockout st t).1 q j) ∧
    (∀ p q j, (exerciseStep S X lockout st t).2 p j =
      (exerciseStep S X lockout st t).2 q j) := by
  have hsr : ∀ p q, stopRule S X p t = stopRule S X q t := by
    intro p q
    rw [stopRule, stopRule, hS p q t, hS p q (t + 1)]
  by_cases hl : lockout < t
  · constructor <;> intro p q j
    · rw [exerciseStep_fst S X lockout st t p j hl,
        exerciseStep_fst S X lockout st t q j hl,
        hsr p q, hS p q t, hW p q j]
    · rw [exerciseStep_snd S X lockout st t p j hl,
        exerciseStep_snd S X lockout st t q j hl,
        hsr p q, hSR p q j]
  · have hid : exerciseStep S X lockout st t = st := by
      rw [exerciseStep, if_neg hl]
    rw [hid]
    exact ⟨hW, hSR⟩

/-- Equal cash-flow rows get equal discounted path values. -/
lemma pathValues_rows (W : Mat) (steps : ℕ) (disc : ℚ)
    (hW : ∀ p q j, W p j = W q j) :
    ∀ p q, pathValues W steps disc p = pathValues W steps disc q := by
  intro p q
  have hfun : (fun i => W p (i + 1)) = (fun i => W q (i + 1)) :=
    funext fun i => hW p q (i + 1)
  show DCFrow ((List.range steps).map (fun i => W p (i + 1))) disc =
    DCFrow ((List.range steps).map (fun i => W q (i + 1))) disc
  rw [hfun]

/-- The standard error of a constant path-value vector is zero (for any
path count, including zero, since `0 / x = 0` in `ℚ`). -/
lemma aggregate_const_se (gsqrt : ℚ → ℚ) (N : ℕ) (v : ℕ → ℚ)
    (hconst : ∀ p q, v p = v q) (hsq0 : gsqrt 0 = 0) :
    (aggregate gsqrt N v).2 = 0 := by
  have hvar : meanQ N (fun p => (v p - meanQ N v) ^ 2) = 0 := by
    cases N with
    | zero =>
      rw [meanQ]
      simp
    | succ n =>
      have hmean : meanQ (n + 1) v = v 0 := by
        rw [meanQ, Finset.sum_congr rfl (fun p _ => hconst p 0),
          Finset.sum_const, Finset.card_range, nsmul_eq_mul]
        exact mul_div_cancel_left₀ _ (Nat.cast_ne_zero.mpr (Nat.succ_ne_zero n))
      rw [meanQ,
        Finset.sum_congr rfl (fun p _ =>
          show (v p - meanQ (n + 1) v) ^ 2 = (0 : ℚ) from by
            rw [hconst p 0, hmean, sub_self]
            exact zero_pow (by norm_num)),
        Finset.sum_const_zero, zero_div]
  show stdQ gsqrt N v / gsqrt (N : ℚ) = 0
  rw [stdQ, hvar, hsq0, zero_div]

/-- Through the source backward loop, if the price rows all agree then the
matrix state keeps all rows equal and the carried `(w_prc, se)` pair always
has zero standard error. -/
lemma srcFold_se_zero (S : Mat) (X : ℚ) (lockout steps : ℕ) (disc : ℚ)
    (gsqrt : ℚ → ℚ) (N : ℕ)
    (hS : ∀ p q j, S p j = S q j) (hsq0 : gsqrt 0 = 0) :
    ∀ (l : List ℕ) (st : (Mat × Mat) × Option (ℚ × ℚ)),
      (∀ p q j, st.1.1 p j = st.1.1 q j) →
      (∀ p q j, st.1.2 p j = st.1.2 q j) →
      (st.2 = none ∨ ∃ w, st.2 = some (w, 0)) →
      ((l.foldl (srcStep S X lockout steps disc gsqrt N) st).2 = none ∨
        ∃ w, (l.foldl (srcStep S X lockout steps disc gsqrt N) st).2 =
          some (w, 0)) := by
  intro l
  induction l with
  | nil => intro st h1 h2 h3; exact h3
  | cons a l ih =>
    intro st h1 h2 h3
    have hrows := exerciseStep_rows S X lockout st.1 a hS h1 h2
    apply ih (srcStep S X lockout steps disc gsqrt N st a) hrows.1 hrows.2
    right
    have hse := aggregate_const_se gsqrt N
      (pathValues (exerciseStep S X lockout st.1 a).1 steps disc)
      (pathValues_rows _ steps disc hrows.1) hsq0
    refine ⟨(aggregate gsqrt N
      (pathValues (exerciseStep S X lockout st.1 a).1 steps disc)).1, ?_⟩
    show some (aggregate gsqrt N
      (pathValues (exerciseStep S X lockout st.1 a).1 steps disc)) = _
    rw [← hse]

/-- Claim C8: with `vol = 0` all simulated paths are identical, every path
follows the deterministic compounding `S0 * exp(r*dt*t)`, and whenever
`price_warrant` returns a pair its standard error is exactly 0. -/
theorem c8_zero_vol_determinism (gexp gsqrt : ℚ → ℚ) (draws : Mat) (S0 T : ℚ)
    (hhom : ∀ a b, gexp (a + b) = gexp a * gexp b)
    (hpos : ∀ x, 0 < gexp x)
    (hsq0 : gsqrt 0 = 0)
    (hS0 : 0 < S0) (hT : 0 < T) :
    (∀ p q t, simPaths gexp gsqrt draws S0 0 p t =
      simPaths gexp gsqrt draws S0 0 q t) ∧
    (∀ p t, simPaths gexp gsqrt draws S0 0 p t = S0 * gexp (rQ * dtQ * t)) ∧
    (∀ w se, priceWarrant gexp gsqrt draws S0 T 0 = some (w, se) → se = 0) := by
  have hform := simPaths_zero_vol gexp gsqrt draws S0 hhom hpos
  have hSP : ∀ p q t, simPaths gexp gsqrt draws S0 0 p t =
      simPaths gexp gsqrt draws S0 0 q t := by
    intro p q t
    rw [hform p t, hform q t]
  refine ⟨hSP, hform, ?_⟩
  have hB : ∀ p q t,
      B18 (simPaths gexp gsqrt draws S0 0) 0 (stepsNat T) p t =
      B18 (simPaths gexp gsqrt draws S0 0) 0 (stepsNat T) q t := by
    intro p q t
    have hrow : simPaths gexp gsqrt draws S0 0 p =
        simPaths gexp gsqrt draws S0 0 q := funext (hSP p q)
    simp only [B18]
    rw [hrow]
  have hS2 : ∀ p q t, Sred gexp gsqrt draws S0 0 T p t =
      Sred gexp gsqrt draws S0 0 T q t := by
    intro p q j
    by_cases hc : ∃ t0, t0 < stepsNat T - 1 ∧
        20 ≤ B18 (simPaths gexp gsqrt draws S0 0) 0 (stepsNat T) p t0 ∧
        t0 + 22 ≤ j
    · obtain ⟨t0, ht1, ht2, ht3⟩ := hc
      simp only [Sred]
      rw [redeemed_zero _ _ _ _ _ ⟨t0, ht1, ht2, ht3⟩,
        redeemed_zero _ _ _ _ _
          ⟨t0, ht1, by rw [← hB p q t0]; exact ht2, ht3⟩]
    · simp only [Sred]
      rw [redeemed_pres _ _ _ _ _ (fun t0 ht0 hcon => hc ⟨t0, ht0, hcon⟩),
        redeemed_pres _ _ _ _ _ (fun t0 ht0 hcon =>
          hc ⟨t0, ht0, ⟨by rw [hB p q t0]; exact hcon.1, hcon.2⟩⟩)]
      exact hSP p q j
  intro w se hws
  have hinitW : ∀ p q j,
      initW (Sred gexp gsqrt draws S0 0 T) XQ (stepsNat T) p j =
      initW (Sred gexp gsqrt draws S0 0 T) XQ (stepsNat T) q j := by
    intro p q j
    simp only [initW, hS2 p q (stepsNat T)]
  have hinitSR : ∀ p q j,
      initSR (Sred gexp gsqrt draws S0 0 T) XQ (stepsNat T) p j =
      initSR (Sred gexp gsqrt draws S0 0 T) XQ (stepsNat T) q j := by
    intro p q j
    simp only [initSR, hS2 p q (stepsNat T)]
  have hfold := srcFold_se_zero (Sred gexp gsqrt draws S0 0 T) XQ 0 (stepsNat T)
    (gexp (-(rQ * dtQ))) gsqrt NQ hS2 hsq0
    (backRange (stepsNat T - 1))
    ((initW (Sred gexp gsqrt draws S0 0 T) XQ (stepsNat T),
      initSR (Sred gexp gsqrt draws S0 0 T) XQ (stepsNat T)), none)
    hinitW hinitSR (Or.inl rfl)
  rw [priceWarrant, priceSrc] at hws
  rcases hfold with hnone | ⟨w', hsome⟩
  · rw [hws] at hnone
    simp at hnone
  · rw [hws] at hsome
    injection hsome with hpair
    exact congrArg Prod.snd hpair

/-- Witness for C8: the deterministic path formula at path 0, step 3, under
the trivial exponential model, with `S0 = 14`, `T = 2`, `vol = 0`. -/
theorem c8_witness :
    simPaths (fun _ => (1 : ℚ)) (fun _ => 0) (fun _ _ => 0) 14 0 0 3 = 14 * 1 := by
  have h := c8_zero_vol_determinism (fun _ => (1 : ℚ)) (fun _ => 0) (fun _ _ => 0)
    14 2 (fun a b => by norm_num) (fun x => by norm_num) rfl (by norm_num)
    (by norm_num)
  simpa using h.2.1 0 3
